import Mathlib

/-!
Verification of the question-answering service in src/main.py.

The file models the three logic-bearing pieces of the service as pure
Lean functions over `List Char` strings: the windower `chunk_text`
(lines 31-47), the per-question best-answer scan with its relevance
threshold (lines 93-102), and the session store with its capped
conversation history and precondition checks (lines 76-120).
Confidence scores are modelled as rationals.
-/

namespace Cenizas

/-- Python strings are modelled as lists of characters. -/
abbrev PyStr := List Char

/-- Auxiliary for Python str.split with no separator: scans the
characters while accumulating the current word in reverse. -/
def splitWsAux : List Char → List Char → List (List Char)
  | [], [] => []
  | [], a :: acc => [(a :: acc).reverse]
  | c :: cs, [] =>
    if c.isWhitespace then splitWsAux cs [] else splitWsAux cs [c]
  | c :: cs, a :: acc =>
    if c.isWhitespace then (a :: acc).reverse :: splitWsAux cs []
    else splitWsAux cs (c :: a :: acc)

/-- Python text.split with no separator argument: the maximal runs of
non-whitespace characters, with empty pieces dropped. -/
def splitWs (s : PyStr) : List PyStr := splitWsAux s []

/-- Python " ".join applied to a list of words. -/
def joinSpace : List PyStr → PyStr
  | [] => []
  | [w] => w
  | w :: x :: ws => w ++ ' ' :: joinSpace (x :: ws)

/-- The loop of chunk_text (src/main.py lines 37-46), mirrored statement
for statement: the words still to be consumed, the chunks already
closed, the running chunk, and the running length. -/
def chunkAux (maxLength : Nat) : List PyStr → List PyStr → List PyStr → Nat → List PyStr
  | [], chunks, [], _ => chunks
  | [], chunks, w :: currentChunk, _ => chunks ++ [joinSpace (w :: currentChunk)]
  | word :: words, chunks, currentChunk, currentLength =>
    if currentLength + word.length + 1 > maxLength then
      chunkAux maxLength words (chunks ++ [joinSpace currentChunk]) [word] (word.length + 1)
    else
      chunkAux maxLength words chunks (currentChunk ++ [word]) (currentLength + word.length + 1)

/-- chunk_text from src/main.py lines 31-47: split the text into
whitespace-separated words and pack them greedily into chunks.  The
service itself always calls it with the default maximum length 512. -/
def chunk_text (text : PyStr) (maxLength : Nat) : List PyStr :=
  chunkAux maxLength (splitWs text) [] [] 0

/-- A collaborator result: candidate answer text plus confidence score
(scores are modelled as rationals). -/
structure Candidate where
  answer : PyStr
  score : ℚ
deriving DecidableEq

/-- The initial running best of the scan, src/main.py line 93. -/
def initialBest : Candidate := ⟨[], 0⟩

/-- One iteration of the scan (lines 96-97): the running best is
replaced exactly when the new score strictly exceeds its score. -/
def bestStep (best result : Candidate) : Candidate :=
  if best.score < result.score then result else best

/-- The scan over the list of per-chunk collaborator results, starting
from the zero-score running best. -/
def runBest (results : List Candidate) : Candidate :=
  List.foldl bestStep initialBest results

/-- The best-answer aggregation of lines 93-97 for an infallible
collaborator: one collaborator call per chunk, keeping the first
strictly-better result. -/
def best_answer (qa : PyStr → Candidate) (chunks : List PyStr) : Candidate :=
  runBest (chunks.map qa)

/-- The relevance threshold of line 99. -/
def relevanceThreshold : ℚ := 1 / 10

/-- The sentinel answer of line 100. -/
def noRelevantAnswer : PyStr := "No relevant answer found in the document.".toList

/-- The final answer selection of lines 99-102. -/
def selectAnswer (best : Candidate) : PyStr :=
  if best.score < relevanceThreshold then noRelevantAnswer else best.answer

/-- A conversation-history record (lines 105-109); the timestamp is an
abstract instant. -/
structure QARecord where
  question : PyStr
  answer : PyStr
  timestamp : Nat
deriving DecidableEq

/-- A session: the document text fixed at upload time and the bounded
conversation history (lines 67-70). -/
structure Session where
  document_text : PyStr
  conversation_history : List QARecord
deriving DecidableEq

/-- The in-memory session store (line 25), a key-value association. -/
abbrev Store := List (PyStr × Session)

/-- Dictionary lookup in the session store. -/
def lookupSession : Store → PyStr → Option Session
  | [], _ => none
  | (k, s) :: rest, sid => if k = sid then some s else lookupSession rest sid

/-- Dictionary update of an existing session (line 116). -/
def updateSession (store : Store) (sid : PyStr) (sess : Session) : Store :=
  store.map fun p => if p.1 = sid then (sid, sess) else p

/-- The conversation-history cap of line 112. -/
def historyCap : Nat := 50

/-- Appending one record to the history and truncating to the most
recent `historyCap` records when the cap is exceeded (lines 105-113);
Python's h[-50:] keeps the last 50 elements. -/
def appendHistory (history : List QARecord) (record : QARecord) : List QARecord :=
  if (history ++ [record]).length > historyCap then
    (history ++ [record]).drop ((history ++ [record]).length - historyCap)
  else
    history ++ [record]

/-- Python str.strip with no argument: remove leading and trailing
whitespace. -/
def pyStrip (s : PyStr) : PyStr :=
  ((s.dropWhile Char.isWhitespace).reverse.dropWhile Char.isWhitespace).reverse

/-- The failure outcomes of the ask operation: the three precondition
failures of lines 79-88 and the catch-all of lines 119-120. -/
inductive AskError where
  | SessionNotFound
  | EmptyDocument
  | EmptyQuestion
  | ProcessingError
deriving DecidableEq

/-- The scan of lines 94-97 with a fallible collaborator: the first
collaborator failure aborts the whole scan, as a raised exception
would. -/
def scanChunks (ask : PyStr → Except Unit Candidate) : List PyStr → Candidate → Except Unit Candidate
  | [], best => .ok best
  | chunk :: rest, best =>
    match ask chunk with
    | .error e => .error e
    | .ok result => scanChunks ask rest (bestStep best result)

/-- ask_question from src/main.py lines 76-120.  The collaborator takes
the question and a chunk and may fail; the store is threaded
explicitly and is returned unchanged on every error path, exactly
where the source performs no mutation.  On success the result carries
the answer and the updated history, and the store is updated at the
session key (lines 104-118). -/
def ask_question (qa : PyStr → PyStr → Except Unit Candidate) (store : Store)
    (session_id : Option PyStr) (question : PyStr) (now : Nat) :
    Except AskError (PyStr × List QARecord) × Store :=
  match session_id with
  | none => (.error .SessionNotFound, store)
  | some sid =>
    if sid = [] then (.error .SessionNotFound, store)
    else
      match lookupSession store sid with
      | none => (.error .SessionNotFound, store)
      | some sess =>
        if sess.document_text = [] then (.error .EmptyDocument, store)
        else if pyStrip question = [] then (.error .EmptyQuestion, store)
        else
          match scanChunks (qa question) (chunk_text sess.document_text 512) initialBest with
          | .error _ => (.error .ProcessingError, store)
          | .ok best =>
            let answer := selectAnswer best
            let history := appendHistory sess.conversation_history ⟨question, answer, now⟩
            (.ok (answer, history), updateSession store sid ⟨sess.document_text, history⟩)

/-! Lemmas about splitting and joining words. -/

lemma splitWsAux_nil_acc (acc : List Char) (h : acc ≠ []) :
    splitWsAux [] acc = [acc.reverse] := by
  cases acc with
  | nil => exact absurd rfl h
  | cons a acc => rfl

lemma splitWsAux_ws_cons (c : Char) (hc : c.isWhitespace = true) (rest acc : List Char)
    (h : acc ≠ []) : splitWsAux (c :: rest) acc = acc.reverse :: splitWsAux rest [] := by
  cases acc with
  | nil => exact absurd rfl h
  | cons a acc => rw [splitWsAux, if_pos hc]

lemma splitWsAux_mem (s : List Char) : ∀ (acc : List Char),
    (∀ c ∈ acc, c.isWhitespace = false) →
    ∀ w ∈ splitWsAux s acc, w ≠ [] ∧ ∀ c ∈ w, c.isWhitespace = false := by
  induction s with
  | nil =>
    intro acc hacc w hw
    cases acc with
    | nil => simp [splitWsAux] at hw
    | cons a acc =>
      rw [splitWsAux] at hw
      rw [List.mem_singleton] at hw
      subst hw
      exact ⟨by simp, fun c hc => hacc c (List.mem_reverse.mp hc)⟩
  | cons c cs ih =>
    intro acc hacc w hw
    cases acc with
    | nil =>
      rw [splitWsAux] at hw
      by_cases hws : c.isWhitespace = true
      · rw [if_pos hws] at hw
        exact ih [] (by simp) w hw
      · rw [if_neg hws] at hw
        refine ih [c] ?_ w hw
        intro ch hch
        rw [List.mem_singleton] at hch
        subst hch
        simpa using hws
    | cons a acc =>
      rw [splitWsAux] at hw
      by_cases hws : c.isWhitespace = true
      · rw [if_pos hws] at hw
        rcases List.mem_cons.1 hw with h | h
        · subst h
          exact ⟨by simp, fun ch hch => hacc ch (List.mem_reverse.mp hch)⟩
        · exact ih [] (by simp) w h
      · rw [if_neg hws] at hw
        refine ih (c :: a :: acc) ?_ w hw
        intro ch hch
        rcases List.mem_cons.1 hch with h | h
        · subst h
          simpa using hws
        · exact hacc ch h

lemma splitWs_mem (s : PyStr) :
    ∀ w ∈ splitWs s, w ≠ [] ∧ ∀ c ∈ w, c.isWhitespace = false :=
  splitWsAux_mem s [] (by simp)

lemma splitWs_all_ws (s : PyStr) (h : ∀ c ∈ s, c.isWhitespace = true) :
    splitWs s = [] := by
  unfold splitWs
  induction s with
  | nil => rfl
  | cons c cs ih =>
    rw [splitWsAux, if_pos (h c (List.mem_cons_self c cs))]
    exact ih fun x hx => h x (List.mem_cons_of_mem c hx)

lemma splitWsAux_append_chars (w : List Char) :
    ∀ (rest acc : List Char), (∀ c ∈ w, c.isWhitespace = false) →
    splitWsAux (w ++ rest) acc = splitWsAux rest (w.reverse ++ acc) := by
  induction w with
  | nil => intro rest acc _; simp
  | cons c cs ih =>
    intro rest acc hgood
    have hc : c.isWhitespace = false := hgood c (List.mem_cons_self c cs)
    cases acc with
    | nil =>
      rw [List.cons_append, splitWsAux, if_neg (by simp [hc])]
      rw [ih rest [c] (fun x hx => hgood x (List.mem_cons_of_mem c hx))]
      simp
    | cons a acc =>
      rw [List.cons_append, splitWsAux, if_neg (by simp [hc])]
      rw [ih rest (c :: a :: acc) (fun x hx => hgood x (List.mem_cons_of_mem c hx))]
      simp

lemma splitWs_single (t : PyStr) (h1 : t ≠ [])
    (h2 : ∀ c ∈ t, c.isWhitespace = false) : splitWs t = [t] := by
  unfold splitWs
  have h := splitWsAux_append_chars t [] [] h2
  rw [List.append_nil] at h
  rw [h, List.append_nil, splitWsAux_nil_acc _ (by simpa using h1)]
  simp

lemma splitWs_joinSpace (ws : List PyStr)
    (h : ∀ w ∈ ws, w ≠ [] ∧ ∀ c ∈ w, c.isWhitespace = false) :
    splitWs (joinSpace ws) = ws := by
  induction ws with
  | nil => rfl
  | cons w tail ih =>
    cases tail with
    | nil =>
      rw [joinSpace]
      exact splitWs_single w (h w (by simp)).1 (h w (by simp)).2
    | cons x ws =>
      rw [joinSpace]
      unfold splitWs
      rw [splitWsAux_append_chars w _ [] (h w (by simp)).2, List.append_nil]
      rw [splitWsAux_ws_cons ' ' (by decide) _ _ (by simpa using (h w (by simp)).1)]
      rw [List.reverse_reverse]
      have := ih fun u hu => h u (List.mem_cons_of_mem w hu)
      unfold splitWs at this
      rw [this]

lemma joinSpace_cons_ne (w : PyStr) (ws : List PyStr) (hw : w ≠ []) :
    joinSpace (w :: ws) ≠ [] := by
  cases ws with
  | nil => simpa [joinSpace] using hw
  | cons x ws => simp [joinSpace]

/-! Lemmas about the chunking loop. -/

lemma chunkAux_append (m : Nat) (ws : List PyStr) :
    ∀ (c₁ c₂ cur : List PyStr) (len : Nat),
    chunkAux m ws (c₁ ++ c₂) cur len = c₁ ++ chunkAux m ws c₂ cur len := by
  induction ws with
  | nil =>
    intro c₁ c₂ cur len
    cases cur with
    | nil => simp [chunkAux]
    | cons w cur => simp [chunkAux]
  | cons word words ih =>
    intro c₁ c₂ cur len
    rw [chunkAux, chunkAux]
    by_cases h : len + word.length + 1 > m
    · rw [if_pos h, if_pos h, List.append_assoc]
      exact ih c₁ (c₂ ++ [joinSpace cur]) [word] (word.length + 1)
    · rw [if_neg h, if_neg h]
      exact ih c₁ c₂ (cur ++ [word]) (len + word.length + 1)

lemma chunkAux_splitWs_join (m : Nat) : ∀ (ws cur : List PyStr) (len : Nat),
    (∀ w ∈ ws, w ≠ [] ∧ ∀ c ∈ w, c.isWhitespace = false) →
    (∀ w ∈ cur, w ≠ [] ∧ ∀ c ∈ w, c.isWhitespace = false) →
    ((chunkAux m ws [] cur len).map splitWs).flatten = cur ++ ws := by
  intro ws
  induction ws with
  | nil =>
    intro cur len _ hcur
    cases cur with
    | nil => rfl
    | cons w cur =>
      rw [chunkAux, List.nil_append, List.map_singleton]
      simp [splitWs_joinSpace (w :: cur) hcur]
  | cons word words ih =>
    intro cur len hws hcur
    have hword := hws word (by simp)
    have hwords : ∀ w ∈ words, w ≠ [] ∧ ∀ c ∈ w, c.isWhitespace = false :=
      fun w hw => hws w (List.mem_cons_of_mem word hw)
    rw [chunkAux]
    by_cases h : len + word.length + 1 > m
    · rw [if_pos h, List.nil_append]
      have hsplit : chunkAux m words [joinSpace cur] [word] (word.length + 1) =
          [joinSpace cur] ++ chunkAux m words [] [word] (word.length + 1) := by
        have := chunkAux_append m words [joinSpace cur] [] [word] (word.length + 1)
        simpa using this
      rw [hsplit, List.map_append, List.flatten_append, List.map_singleton]
      rw [ih [word] (word.length + 1) hwords (by simpa using hword)]
      simp [splitWs_joinSpace cur hcur]
    · rw [if_neg h]
      rw [ih (cur ++ [word]) (len + word.length + 1) hwords ?_]
      · simp
      · intro w hw
        rcases List.mem_append.1 hw with h' | h'
        · exact hcur w h'
        · rw [List.mem_singleton] at h'
          subst h'
          exact hword

/-- C1: for every non-empty text and every maximum length, splitting the
produced windows back into words and concatenating reproduces the
original word sequence exactly: no word is lost, duplicated, or
reordered. -/
theorem chunk_text_preserves_words (text : PyStr) (maxLength : Nat) (h : text ≠ []) :
    ((chunk_text text maxLength).map splitWs).flatten = splitWs text := by
  unfold chunk_text
  have := chunkAux_splitWs_join maxLength (splitWs text) [] 0 (splitWs_mem text) (by simp)
  simpa using this

/-- Witness for C1 at the concrete text "a b" with maximum length 1. -/
theorem chunk_text_preserves_words_witness :
    ((chunk_text ['a', ' ', 'b'] 1).map splitWs).flatten = splitWs ['a', ' ', 'b'] :=
  chunk_text_preserves_words ['a', ' ', 'b'] 1 (by decide)

/-- C8: chunking the empty string yields the empty sequence, and a text
consisting of a single word longer than the maximum length keeps that
word whole as its own window (it is never split mid-word; the budget
check also emits a spurious empty window in front of it, the subject of
the C2 correction). -/
theorem chunk_text_edges (maxLength : Nat) (t : PyStr) (h1 : t ≠ [])
    (h2 : ∀ c ∈ t, c.isWhitespace = false) (h3 : maxLength < t.length) :
    chunk_text [] maxLength = [] ∧ chunk_text t maxLength = [[], t] := by
  refine ⟨rfl, ?_⟩
  unfold chunk_text
  rw [splitWs_single t h1 h2, chunkAux, if_pos (by omega)]
  rfl

/-- Witness for C8 at the single word "abc" with maximum length 2. -/
theorem chunk_text_edges_witness :
    chunk_text [] 2 = [] ∧ chunk_text ['a', 'b', 'c'] 2 = [[], ['a', 'b', 'c']] :=
  chunk_text_edges 2 ['a', 'b', 'c'] (by decide) (by decide) (by decide)

lemma chunkAux_length (m : Nat) : ∀ (ws chunks cur : List PyStr) (len : Nat),
    (chunkAux m ws chunks cur len).length ≤ chunks.length + ws.length + 1 := by
  intro ws
  induction ws with
  | nil =>
    intro chunks cur len
    cases cur with
    | nil => simp [chunkAux]
    | cons w cur => simp [chunkAux]
  | cons word words ih =>
    intro chunks cur len
    rw [chunkAux]
    by_cases h : len + word.length + 1 > m
    · rw [if_pos h]
      have h2 := ih (chunks ++ [joinSpace cur]) [word] (word.length + 1)
      simp only [List.length_append, List.length_cons, List.length_nil] at h2 ⊢
      omega
    · rw [if_neg h]
      have h2 := ih chunks (cur ++ [word]) (len + word.length + 1)
      simp only [List.length_cons] at h2 ⊢
      omega

lemma chunkAux_all_ne (m : Nat) : ∀ (ws chunks cur : List PyStr) (len : Nat),
    (∀ c ∈ chunks, c ≠ []) → (∀ w ∈ ws, w ≠ []) → (∀ w ∈ cur, w ≠ []) → cur ≠ [] →
    ∀ c ∈ chunkAux m ws chunks cur len, c ≠ [] := by
  intro ws
  induction ws with
  | nil =>
    intro chunks cur len hchunks _ hcur hne c hc
    cases cur with
    | nil => exact absurd rfl hne
    | cons w cur =>
      rw [chunkAux] at hc
      rcases List.mem_append.1 hc with h | h
      · exact hchunks c h
      · rw [List.mem_singleton] at h
        subst h
        exact joinSpace_cons_ne w cur (hcur w (by simp))
  | cons word words ih =>
    intro chunks cur len hchunks hws hcur hne c hc
    rw [chunkAux] at hc
    by_cases h : len + word.length + 1 > m
    · rw [if_pos h] at hc
      refine ih (chunks ++ [joinSpace cur]) [word] (word.length + 1) ?_ ?_ ?_ (by simp) c hc
      · intro x hx
        rcases List.mem_append.1 hx with h' | h'
        · exact hchunks x h'
        · rw [List.mem_singleton] at h'
          subst h'
          cases cur with
          | nil => exact absurd rfl hne
          | cons w cur => exact joinSpace_cons_ne w cur (hcur w (by simp))
      · exact fun x hx => hws x (List.mem_cons_of_mem word hx)
      · intro x hx
        rw [List.mem_singleton] at hx
        rw [hx]
        exact hws word (by simp)
    · rw [if_neg h] at hc
      refine ih chunks (cur ++ [word]) (len + word.length + 1) hchunks
        (fun x hx => hws x (List.mem_cons_of_mem word hx)) ?_ (by simp) c hc
      intro x hx
      rcases List.mem_append.1 hx with h' | h'
      · exact hcur x h'
      · rw [List.mem_singleton] at h'
        rw [h']
        exact hws word (by simp)

/-- C2 counterexample: with maximum length 2 (which is at least 1) the
two-character single word "ab" produces the window list ["", "ab"]:
its first window is empty and there are two windows for a single input
word, refuting both the non-emptiness and the window-count bound of the
claim. -/
theorem chunk_text_window_bounds_counterexample :
    (1 : Nat) ≤ 2 ∧ [] ∈ chunk_text ['a', 'b'] 2 ∧
      (splitWs ['a', 'b']).length < (chunk_text ['a', 'b'] 2).length := by
  decide

/-- C2 amended: for every text and every maximum length at least 1, the
produced window sequence is finite, every window except possibly the
first is non-empty (the first window is empty when the first word
already overflows the budget), and the number of windows is at most the
number of words plus one. -/
theorem chunk_text_window_bounds (text : PyStr) (maxLength : Nat) (chunk : PyStr)
    (hm : 1 ≤ maxLength) (hc : chunk ∈ (chunk_text text maxLength).tail) :
    (chunk_text text maxLength).length ≤ (splitWs text).length + 1 ∧ chunk ≠ [] := by
  constructor
  · have := chunkAux_length maxLength (splitWs text) [] [] 0
    simpa [chunk_text] using this
  · unfold chunk_text at hc
    have hgood : ∀ w ∈ splitWs text, w ≠ [] := fun w hw => (splitWs_mem text w hw).1
    cases hsp : splitWs text with
    | nil =>
      rw [hsp] at hc
      simp [chunkAux] at hc
    | cons word words =>
      rw [hsp] at hc
      rw [hsp] at hgood
      have hwordsne : ∀ w ∈ words, w ≠ [] := fun w hw => hgood w (List.mem_cons_of_mem word hw)
      have hwordne : ∀ w ∈ [word], w ≠ [] := by
        intro w hw
        rw [List.mem_singleton] at hw
        rw [hw]
        exact hgood word (by simp)
      rw [chunkAux] at hc
      by_cases h : 0 + word.length + 1 > maxLength
      · rw [if_pos h] at hc
        have hsplit : chunkAux maxLength words ([] ++ [joinSpace []]) [word] (word.length + 1) =
            [joinSpace []] ++ chunkAux maxLength words [] [word] (word.length + 1) := by
          simpa using chunkAux_append maxLength words [joinSpace []] [] [word] (word.length + 1)
        rw [hsplit] at hc
        have hmem : chunk ∈ chunkAux maxLength words [] [word] (word.length + 1) := by
          simpa [joinSpace] using hc
        exact chunkAux_all_ne maxLength words [] [word] (word.length + 1)
          (by simp) hwordsne hwordne (by simp) chunk hmem
      · rw [if_neg h] at hc
        have hmem : chunk ∈ chunkAux maxLength words [] [word] (0 + word.length + 1) := by
          have := List.mem_of_mem_tail hc
          simpa using this
        exact chunkAux_all_ne maxLength words [] [word] (0 + word.length + 1)
          (by simp) hwordsne hwordne (by simp) chunk hmem

/-- Witness for the amended C2 at the text "ab" with maximum length 2. -/
theorem chunk_text_window_bounds_witness :
    (chunk_text ['a', 'b'] 2).length ≤ (splitWs ['a', 'b']).length + 1 ∧
      ['a', 'b'] ≠ ([] : PyStr) :=
  chunk_text_window_bounds ['a', 'b'] 2 ['a', 'b'] (by decide) (by decide)

/-! Lemmas about the character budget of windows. -/

/-- The running length maintained by the chunking loop: each word counts
for its length plus one separator. -/
def sumLen (l : List PyStr) : Nat := (l.map fun w => w.length + 1).sum

lemma sumLen_cons (w : PyStr) (l : List PyStr) :
    sumLen (w :: l) = w.length + 1 + sumLen l := by
  unfold sumLen
  rw [List.map_cons, List.sum_cons]

lemma sumLen_append_single (l : List PyStr) (w : PyStr) :
    sumLen (l ++ [w]) = sumLen l + (w.length + 1) := by
  unfold sumLen
  rw [List.map_append, List.sum_append]
  simp

lemma joinSpace_length : ∀ (ws : List PyStr) (w : PyStr),
    (joinSpace (w :: ws)).length + 1 = sumLen (w :: ws) := by
  intro ws
  induction ws with
  | nil =>
    intro w
    simp [joinSpace, sumLen]
  | cons x ws ih =>
    intro w
    rw [joinSpace, List.length_append, List.length_cons, sumLen_cons]
    have := ih x
    omega

lemma joinSpace_budget (m : Nat) (allW : List PyStr) (cur : List PyStr)
    (hcurW : ∀ w ∈ cur, w ∈ allW)
    (hcur : cur ≠ [] → (sumLen cur ≤ m ∨ ∃ w, cur = [w])) :
    (joinSpace cur).length ≤ m ∨ ∃ w ∈ allW, joinSpace cur = w := by
  cases cur with
  | nil =>
    left
    simp [joinSpace]
  | cons w cur =>
    rcases hcur (by simp) with hle | ⟨w', hw'⟩
    · left
      have := joinSpace_length cur w
      omega
    · right
      refine ⟨w', hcurW w' (by rw [hw']; simp), ?_⟩
      rw [hw', joinSpace]

lemma chunkAux_budget (m : Nat) (allW : List PyStr) : ∀ (ws chunks cur : List PyStr) (len : Nat),
    len = sumLen cur →
    (∀ w ∈ ws, w ∈ allW) → (∀ w ∈ cur, w ∈ allW) →
    (∀ c ∈ chunks, c.length ≤ m ∨ ∃ w ∈ allW, c = w) →
    (cur ≠ [] → (sumLen cur ≤ m ∨ ∃ w, cur = [w])) →
    ∀ c ∈ chunkAux m ws chunks cur len, c.length ≤ m ∨ ∃ w ∈ allW, c = w := by
  intro ws
  induction ws with
  | nil =>
    intro chunks cur len _ _ hcurW hchunks hcur c hc
    cases cur with
    | nil => exact hchunks c hc
    | cons w cur =>
      rw [chunkAux] at hc
      rcases List.mem_append.1 hc with h | h
      · exact hchunks c h
      · rw [List.mem_singleton] at h
        subst h
        exact joinSpace_budget m allW (w :: cur) hcurW hcur
  | cons word words ih =>
    intro chunks cur len hlen hws hcurW hchunks hcur c hc
    have hwordAll : word ∈ allW := hws word (by simp)
    have hwordsAll : ∀ w ∈ words, w ∈ allW := fun w hw => hws w (List.mem_cons_of_mem word hw)
    rw [chunkAux] at hc
    by_cases h : len + word.length + 1 > m
    · rw [if_pos h] at hc
      refine ih (chunks ++ [joinSpace cur]) [word] (word.length + 1) (by simp [sumLen])
        hwordsAll ?_ ?_ (fun _ => Or.inr ⟨word, rfl⟩) c hc
      · intro x hx
        rw [List.mem_singleton] at hx
        rw [hx]
        exact hwordAll
      · intro x hx
        rcases List.mem_append.1 hx with h' | h'
        · exact hchunks x h'
        · rw [List.mem_singleton] at h'
          subst h'
          exact joinSpace_budget m allW cur hcurW hcur
    · rw [if_neg h] at hc
      refine ih chunks (cur ++ [word]) (len + word.length + 1)
        (by rw [sumLen_append_single, hlen]; omega) hwordsAll ?_ hchunks ?_ c hc
      · intro x hx
        rcases List.mem_append.1 hx with h' | h'
        · exact hcurW x h'
        · rw [List.mem_singleton] at h'
          rw [h']
          exact hwordAll
      · intro _
        left
        rw [sumLen_append_single, ← hlen]
        omega

/-- C3: every produced window fits in the character budget, except that
a window may exceed it only by consisting of one whole input word that
is itself longer than the budget; the budget check then forces a new
window, so the oversized word is never merged with other words and
never split. -/
theorem chunk_text_budget (text : PyStr) (maxLength : Nat) (chunk : PyStr)
    (hc : chunk ∈ chunk_text text maxLength) :
    chunk.length ≤ maxLength ∨
      ∃ w ∈ splitWs text, chunk = w ∧ maxLength < w.length := by
  unfold chunk_text at hc
  have base := chunkAux_budget maxLength (splitWs text) (splitWs text) [] [] 0
    (by simp [sumLen]) (fun w hw => hw) (by simp) (by simp) (by simp) chunk hc
  rcases base with h | ⟨w, hw, hcw⟩
  · exact Or.inl h
  · by_cases hlen : chunk.length ≤ maxLength
    · exact Or.inl hlen
    · right
      refine ⟨w, hw, hcw, ?_⟩
      rw [← hcw]
      omega

/-- Witness for C3 at the single oversized word "abc" with maximum
length 2. -/
theorem chunk_text_budget_witness :
    ('a' :: ['b', 'c']).length ≤ 2 ∨
      ∃ w ∈ splitWs ['a', 'b', 'c'], 'a' :: ['b', 'c'] = w ∧ 2 < w.length :=
  chunk_text_budget ['a', 'b', 'c'] 2 ('a' :: ['b', 'c']) (by decide)

/-! Lemmas about the best-answer scan. -/

lemma bestStep_score (b r : Candidate) : (bestStep b r).score = max b.score r.score := by
  unfold bestStep
  by_cases h : b.score < r.score
  · rw [if_pos h, max_eq_right h.le]
  · rw [if_neg h, max_eq_left (not_lt.mp h)]

lemma foldBest_score : ∀ (l : List Candidate) (b : Candidate),
    (List.foldl bestStep b l).score = List.foldl (fun m c => max m c.score) b.score l := by
  intro l
  induction l with
  | nil => intro b; rfl
  | cons r l ih =>
    intro b
    rw [List.foldl_cons, List.foldl_cons, ih, bestStep_score]

lemma foldScoreMono : ∀ (l : List Candidate) (a b : ℚ), a ≤ b →
    List.foldl (fun m c => max m c.score) a l ≤ List.foldl (fun m c => max m c.score) b l := by
  intro l
  induction l with
  | nil => intro a b h; exact h
  | cons r l ih =>
    intro a b h
    rw [List.foldl_cons, List.foldl_cons]
    exact ih _ _ (max_le_max h le_rfl)

lemma foldScore_lt (q : ℚ) : ∀ (l : List Candidate) (b : ℚ), b < q →
    (∀ c ∈ l, c.score < q) → List.foldl (fun m c => max m c.score) b l < q := by
  intro l
  induction l with
  | nil => intro b hb _; exact hb
  | cons r l ih =>
    intro b hb hall
    rw [List.foldl_cons]
    exact ih _ (max_lt hb (hall r (by simp))) fun c hc => hall c (List.mem_cons_of_mem r hc)

lemma foldBest_of_all_le : ∀ (l : List Candidate) (b : Candidate),
    (∀ x ∈ l, x.score ≤ b.score) → List.foldl bestStep b l = b := by
  intro l
  induction l with
  | nil => intro b _; rfl
  | cons r l ih =>
    intro b hall
    rw [List.foldl_cons]
    have hstep : bestStep b r = b := by
      unfold bestStep
      rw [if_neg (not_lt.mpr (hall r (by simp)))]
    rw [hstep]
    exact ih b fun x hx => hall x (List.mem_cons_of_mem r hx)

lemma foldBest_argmax : ∀ (l : List Candidate) (b : Candidate),
    (∃ x ∈ l, b.score < x.score) →
    ∃ i, ∃ hi : i < l.length,
      List.foldl bestStep b l = l[i] ∧
      b.score < l[i].score ∧
      (∀ j, ∀ hj : j < l.length, l[j].score ≤ l[i].score) ∧
      (∀ j, ∀ hj : j < l.length, j < i → l[j].score < l[i].score) := by
  intro l
  induction l with
  | nil =>
    intro b h
    simp at h
  | cons r l ih =>
    intro b hex
    rw [List.foldl_cons]
    by_cases hbr : b.score < r.score
    · have hstep : bestStep b r = r := by
        unfold bestStep
        rw [if_pos hbr]
      rw [hstep]
      by_cases hex2 : ∃ x ∈ l, r.score < x.score
      · obtain ⟨i, hi, heq, hlt, hmax, hfirst⟩ := ih r hex2
        refine ⟨i + 1, by simpa using Nat.succ_lt_succ hi, by simpa using heq,
          by simpa using lt_trans hbr hlt, ?_, ?_⟩
        · intro j hj
          cases j with
          | zero => simpa using hlt.le
          | succ j =>
            have hj' : j < l.length := by simpa using hj
            simpa using hmax j hj'
        · intro j hj hji
          cases j with
          | zero => simpa using hlt
          | succ j =>
            have hj' : j < l.length := by simpa using hj
            simpa using hfirst j hj' (by omega)
      · push_neg at hex2
        rw [foldBest_of_all_le l r hex2]
        refine ⟨0, by simp, by simp, by simpa using hbr, ?_, ?_⟩
        · intro j hj
          cases j with
          | zero => simp
          | succ j =>
            have hj' : j < l.length := by simpa using hj
            simpa using hex2 l[j] (List.getElem_mem hj')
        · intro j hj hji
          omega
    · have hstep : bestStep b r = b := by
        unfold bestStep
        rw [if_neg hbr]
      rw [hstep]
      have hex2 : ∃ x ∈ l, b.score < x.score := by
        obtain ⟨x, hx, hbx⟩ := hex
        rcases List.mem_cons.1 hx with h | h
        · rw [h] at hbx
          exact absurd hbx hbr
        · exact ⟨x, h, hbx⟩
      obtain ⟨i, hi, heq, hlt, hmax, hfirst⟩ := ih b hex2
      have hrb : r.score ≤ b.score := not_lt.mp hbr
      refine ⟨i + 1, by simpa using Nat.succ_lt_succ hi, by simpa using heq,
        by simpa using hlt, ?_, ?_⟩
      · intro j hj
        cases j with
        | zero => simpa using (lt_of_le_of_lt hrb hlt).le
        | succ j =>
          have hj' : j < l.length := by simpa using hj
          simpa using hmax j hj'
      · intro j hj hji
        cases j with
        | zero => simpa using lt_of_le_of_lt hrb hlt
        | succ j =>
          have hj' : j < l.length := by simpa using hj
          simpa using hfirst j hj' (by omega)

/-- C4: if every window's collaborator confidence is strictly below the
0.1 relevance threshold the flow answers with the sentinel, and if the
final running best's confidence is at least 0.1 the flow answers with
that best candidate's text. -/
theorem best_answer_threshold (qa : PyStr → Candidate) (chunks : List PyStr) :
    ((∀ c ∈ chunks, (qa c).score < relevanceThreshold) →
      selectAnswer (best_answer qa chunks) = noRelevantAnswer) ∧
    (relevanceThreshold ≤ (best_answer qa chunks).score →
      selectAnswer (best_answer qa chunks) = (best_answer qa chunks).answer) := by
  constructor
  · intro hall
    have hsc : (best_answer qa chunks).score < relevanceThreshold := by
      unfold best_answer runBest
      rw [foldBest_score]
      refine foldScore_lt relevanceThreshold (chunks.map qa) initialBest.score ?_ ?_
      · norm_num [initialBest, relevanceThreshold]
      · intro c hc
        rcases List.mem_map.1 hc with ⟨x, hx, rfl⟩
        exact hall x hx
    unfold selectAnswer
    rw [if_pos hsc]
  · intro hge
    unfold selectAnswer
    rw [if_neg (not_lt.mpr hge)]

/-- A stub collaborator whose confidence is always 0, used as a witness
input. -/
def qaLow : PyStr → Candidate := fun _ => ⟨['x'], 0⟩

/-- A stub collaborator whose confidence is always 1/2, used as a
witness input. -/
def qaHigh : PyStr → Candidate := fun _ => ⟨['y'], 1 / 2⟩

/-- Witness for C4: the all-low collaborator yields the sentinel and the
high-confidence collaborator yields the best candidate's text. -/
theorem best_answer_threshold_witness :
    selectAnswer (best_answer qaLow [['a']]) = noRelevantAnswer ∧
    selectAnswer (best_answer qaHigh [['a']]) = (best_answer qaHigh [['a']]).answer := by
  constructor
  · refine (best_answer_threshold qaLow [['a']]).1 ?_
    intro c _
    norm_num [qaLow, relevanceThreshold]
  · refine (best_answer_threshold qaHigh [['a']]).2 ?_
    show relevanceThreshold ≤ (best_answer qaHigh [['a']]).score
    norm_num [best_answer, runBest, qaHigh, bestStep, initialBest, relevanceThreshold]

/-- C5: when some window scores strictly above the zero-initialised
running best, the aggregation returns the collaborator result of the
first window attaining the maximum confidence (strict comparison, so
earlier windows win ties); when no window does, the zero-initialised
running best itself survives every tie; and replacing one window's
result by one with a lower confidence never increases the final best
score. -/
theorem best_answer_argmax_mono (qa : PyStr → Candidate) (chunks : List PyStr)
    (pre post : List Candidate) (r r' : Candidate) :
    ((∃ c ∈ chunks, 0 < (qa c).score) →
      ∃ i, ∃ hi : i < chunks.length,
        best_answer qa chunks = qa chunks[i] ∧
        (∀ j, ∀ hj : j < chunks.length, (qa chunks[j]).score ≤ (qa chunks[i]).score) ∧
        (∀ j, ∀ hj : j < chunks.length, j < i → (qa chunks[j]).score < (qa chunks[i]).score)) ∧
    ((∀ c ∈ chunks, (qa c).score ≤ 0) → best_answer qa chunks = initialBest) ∧
    (r'.score ≤ r.score →
      (runBest (pre ++ r' :: post)).score ≤ (runBest (pre ++ r :: post)).score) := by
  refine ⟨?_, ?_, ?_⟩
  · intro hex
    have hex' : ∃ x ∈ chunks.map qa, initialBest.score < x.score := by
      obtain ⟨c, hc, hpos⟩ := hex
      exact ⟨qa c, List.mem_map_of_mem qa hc, by simpa [initialBest] using hpos⟩
    obtain ⟨i, hi, heq, _, hmax, hfirst⟩ := foldBest_argmax (chunks.map qa) initialBest hex'
    have hilen : i < chunks.length := by simpa using hi
    refine ⟨i, hilen, ?_, ?_, ?_⟩
    · unfold best_answer runBest
      rw [heq]
      simp
    · intro j hj
      have := hmax j (by simpa using hj)
      simpa using this
    · intro j hj hji
      have := hfirst j (by simpa using hj) hji
      simpa using this
  · intro hall
    unfold best_answer runBest
    refine foldBest_of_all_le (chunks.map qa) initialBest ?_
    intro x hx
    rcases List.mem_map.1 hx with ⟨c, hc, rfl⟩
    simpa [initialBest] using hall c hc
  · intro hle
    unfold runBest
    rw [foldBest_score, foldBest_score, List.foldl_append, List.foldl_append,
      List.foldl_cons, List.foldl_cons]
    exact foldScoreMono post _ _ (max_le_max le_rfl hle)

/-- Witness for C5 with one high-scoring window and a one-element score
replacement 1 by 0. -/
theorem best_answer_argmax_mono_witness :
    (∃ i, ∃ hi : i < ([['a']] : List PyStr).length,
      best_answer qaHigh [['a']] = qaHigh (([['a']] : List PyStr)[i]) ∧
      (∀ j, ∀ hj : j < ([['a']] : List PyStr).length,
        (qaHigh (([['a']] : List PyStr)[j])).score ≤ (qaHigh (([['a']] : List PyStr)[i])).score) ∧
      (∀ j, ∀ hj : j < ([['a']] : List PyStr).length, j < i →
        (qaHigh (([['a']] : List PyStr)[j])).score < (qaHigh (([['a']] : List PyStr)[i])).score)) ∧
    best_answer qaLow [['a']] = initialBest ∧
    ((runBest ([] ++ Candidate.mk [] 0 :: [])).score ≤
      (runBest ([] ++ Candidate.mk [] 1 :: [])).score) := by
  refine ⟨?_, ?_, ?_⟩
  · refine (best_answer_argmax_mono qaHigh [['a']] [] [] ⟨[], 1⟩ ⟨[], 0⟩).1 ?_
    refine ⟨['a'], by simp, ?_⟩
    norm_num [qaHigh]
  · refine (best_answer_argmax_mono qaLow [['a']] [] [] ⟨[], 1⟩ ⟨[], 0⟩).2.1 ?_
    intro c _
    norm_num [qaLow]
  · exact (best_answer_argmax_mono qaHigh [['a']] [] [] ⟨[], 1⟩ ⟨[], 0⟩).2.2 (by norm_num)

/-! Lemmas about the conversation-history cap. -/

lemma appendHistory_eq (h : List QARecord) (r : QARecord) :
    appendHistory h r = (h ++ [r]).drop ((h ++ [r]).length - historyCap) := by
  unfold appendHistory
  by_cases hl : (h ++ [r]).length > historyCap
  · rw [if_pos hl]
  · rw [if_neg hl]
    have h0 : (h ++ [r]).length - historyCap = 0 := by omega
    rw [h0, List.drop_zero]

lemma appendHistory_length (h : List QARecord) (r : QARecord) (hl : h.length ≤ 50) :
    (appendHistory h r).length ≤ 50 := by
  rw [appendHistory_eq, List.length_drop]
  simp only [List.length_append, List.length_cons, List.length_nil, historyCap] at *
  omega

lemma drop_sub_append (n : Nat) (a b : List QARecord) :
    ((a.drop (a.length - n)) ++ b).drop (((a.drop (a.length - n)) ++ b).length - n) =
      (a ++ b).drop ((a ++ b).length - n) := by
  by_cases hn : n ≤ a.length
  · have hk : a.length - n ≤ a.length := Nat.sub_le _ _
    have h1 : a.drop (a.length - n) ++ b = (a ++ b).drop (a.length - n) :=
      (List.drop_append_of_le_length hk).symm
    rw [h1, List.drop_drop]
    congr 1
    simp only [List.length_drop, List.length_append]
    omega
  · push_neg at hn
    have h0 : a.length - n = 0 := by omega
    rw [h0, List.drop_zero]

lemma foldl_appendHistory (recs : List QARecord) : ∀ (h : List QARecord), h.length ≤ 50 →
    List.foldl appendHistory h recs = (h ++ recs).drop ((h ++ recs).length - 50) := by
  induction recs with
  | nil =>
    intro h hl
    rw [List.foldl_nil, List.append_nil]
    have h0 : h.length - 50 = 0 := by omega
    rw [h0, List.drop_zero]
  | cons r recs ih =>
    intro h hl
    rw [List.foldl_cons, ih (appendHistory h r) (appendHistory_length h r hl)]
    rw [appendHistory_eq]
    have hcap : historyCap = 50 := rfl
    rw [hcap, drop_sub_append 50 (h ++ [r]) recs, List.append_assoc, List.singleton_append]

/-- C6: appending to a history within the 50-record cap keeps it within
the cap, and the history produced by any sequence of appends starting
from the empty history is exactly the suffix of the most recent 50
records in their original order; in particular 55 sequential appends
keep exactly the last 50 records, dropping the oldest 5. -/
theorem conversation_history_cap (h : List QARecord) (r : QARecord) (recs : List QARecord)
    (hl : h.length ≤ 50) :
    (appendHistory h r).length ≤ 50 ∧
    List.foldl appendHistory [] recs = recs.drop (recs.length - 50) ∧
    (recs.length = 55 → List.foldl appendHistory [] recs = recs.drop 5) := by
  have base := foldl_appendHistory recs [] (by simp)
  rw [List.nil_append] at base
  refine ⟨appendHistory_length h r hl, base, ?_⟩
  intro h55
  rw [base, h55]

/-- A fixed record used as a witness input. -/
def dummyRecord : QARecord := ⟨[], [], 0⟩

/-- Witness for C6 with 55 identical records appended to one session's
initially empty history. -/
theorem conversation_history_cap_witness :
    (appendHistory [] dummyRecord).length ≤ 50 ∧
    List.foldl appendHistory [] (List.replicate 55 dummyRecord) =
      (List.replicate 55 dummyRecord).drop ((List.replicate 55 dummyRecord).length - 50) ∧
    List.foldl appendHistory [] (List.replicate 55 dummyRecord) =
      (List.replicate 55 dummyRecord).drop 5 := by
  have base := conversation_history_cap [] dummyRecord (List.replicate 55 dummyRecord) (by simp)
  exact ⟨base.1, base.2.1, base.2.2 (by simp)⟩

/-! Evaluation lemmas for each control path of ask_question. -/

lemma ask_question_none {qa : PyStr → PyStr → Except Unit Candidate} {store : Store}
    {q : PyStr} {now : Nat} :
    ask_question qa store none q now = (.error .SessionNotFound, store) := rfl

lemma ask_question_nil_sid {qa : PyStr → PyStr → Except Unit Candidate} {store : Store}
    {q : PyStr} {now : Nat} :
    ask_question qa store (some []) q now = (.error .SessionNotFound, store) := by
  simp [ask_question]

lemma ask_question_not_found {qa : PyStr → PyStr → Except Unit Candidate} {store : Store}
    {sid : PyStr} {q : PyStr} {now : Nat} (hsid : sid ≠ [])
    (hl : lookupSession store sid = none) :
    ask_question qa store (some sid) q now = (.error .SessionNotFound, store) := by
  simp only [ask_question]
  rw [if_neg hsid, hl]

lemma ask_question_empty_doc {qa : PyStr → PyStr → Except Unit Candidate} {store : Store}
    {sid : PyStr} {sess : Session} {q : PyStr} {now : Nat} (hsid : sid ≠ [])
    (hl : lookupSession store sid = some sess) (hdoc : sess.document_text = []) :
    ask_question qa store (some sid) q now = (.error .EmptyDocument, store) := by
  simp only [ask_question]
  rw [if_neg hsid, hl]
  simp only [if_pos hdoc]

lemma ask_question_empty_question {qa : PyStr → PyStr → Except Unit Candidate} {store : Store}
    {sid : PyStr} {sess : Session} {q : PyStr} {now : Nat} (hsid : sid ≠ [])
    (hl : lookupSession store sid = some sess) (hdoc : sess.document_text ≠ [])
    (hq : pyStrip q = []) :
    ask_question qa store (some sid) q now = (.error .EmptyQuestion, store) := by
  simp only [ask_question]
  rw [if_neg hsid, hl]
  simp only [if_neg hdoc, if_pos hq]

lemma ask_question_scan_error {qa : PyStr → PyStr → Except Unit Candidate} {store : Store}
    {sid : PyStr} {sess : Session} {q : PyStr} {now : Nat} {e : Unit} (hsid : sid ≠ [])
    (hl : lookupSession store sid = some sess) (hdoc : sess.document_text ≠ [])
    (hq : pyStrip q ≠ [])
    (hscan : scanChunks (qa q) (chunk_text sess.document_text 512) initialBest = .error e) :
    ask_question qa store (some sid) q now = (.error .ProcessingError, store) := by
  simp only [ask_question]
  rw [if_neg hsid, hl]
  simp only [if_neg hdoc, if_neg hq, hscan]

lemma ask_question_scan_ok {qa : PyStr → PyStr → Except Unit Candidate} {store : Store}
    {sid : PyStr} {sess : Session} {q : PyStr} {now : Nat} {best : Candidate} (hsid : sid ≠ [])
    (hl : lookupSession store sid = some sess) (hdoc : sess.document_text ≠ [])
    (hq : pyStrip q ≠ [])
    (hscan : scanChunks (qa q) (chunk_text sess.document_text 512) initialBest = .ok best) :
    ask_question qa store (some sid) q now =
      (.ok (selectAnswer best,
          appendHistory sess.conversation_history ⟨q, selectAnswer best, now⟩),
        updateSession store sid
          ⟨sess.document_text,
            appendHistory sess.conversation_history ⟨q, selectAnswer best, now⟩⟩) := by
  simp only [ask_question]
  rw [if_neg hsid, hl]
  simp only [if_neg hdoc, if_neg hq, hscan]

/-- C9: whenever the ask operation fails, the session store is left
exactly as it was: no record is appended and no session is modified. -/
theorem ask_question_atomic (qa : PyStr → PyStr → Except Unit Candidate) (store : Store)
    (session_id : Option PyStr) (q : PyStr) (now : Nat) (e : AskError)
    (h : (ask_question qa store session_id q now).1 = .error e) :
    (ask_question qa store session_id q now).2 = store := by
  cases session_id with
  | none => rfl
  | some sid =>
    by_cases hsid : sid = []
    · rw [hsid, ask_question_nil_sid]
    · cases hl : lookupSession store sid with
      | none => rw [ask_question_not_found hsid hl]
      | some sess =>
        by_cases hdoc : sess.document_text = []
        · rw [ask_question_empty_doc hsid hl hdoc]
        · by_cases hq : pyStrip q = []
          · rw [ask_question_empty_question hsid hl hdoc hq]
          · cases hscan : scanChunks (qa q) (chunk_text sess.document_text 512) initialBest with
            | error err => rw [ask_question_scan_error hsid hl hdoc hq hscan]
            | ok best =>
              rw [ask_question_scan_ok hsid hl hdoc hq hscan] at h
              exact absurd h (by simp)

/-- Witness for C9: asking with a missing session identifier fails and
leaves the empty store unchanged. -/
theorem ask_question_atomic_witness :
    (ask_question (fun _ _ => Except.ok (⟨[], 0⟩ : Candidate)) [] none [] 0).2 = [] :=
  ask_question_atomic (fun _ _ => Except.ok (⟨[], 0⟩ : Candidate)) [] none [] 0
    AskError.SessionNotFound rfl

/-- Coherence of the two views of the scan: with a collaborator that
never fails, the fallible scan inside ask_question computes exactly the
best-answer fold. -/
lemma scanChunks_ok (f : PyStr → Candidate) : ∀ (l : List PyStr) (b : Candidate),
    scanChunks (fun c => .ok (f c)) l b = .ok (List.foldl bestStep b (l.map f)) := by
  intro l
  induction l with
  | nil => intro b; rfl
  | cons c l ih =>
    intro b
    simp [scanChunks, ih]

/-- C7: the ask operation fails with SessionNotFound exactly when the
session identifier is missing or absent from the store, with
EmptyDocument exactly when the session exists but its document text is
empty, and with EmptyQuestion exactly when the session and document are
fine but the question is empty after trimming whitespace; the checks
apply in that order, and a call passing all three proceeds to the
answering phase.  The hypothesis that the empty string is not a store
key holds for every reachable store, whose keys are generated UUIDs. -/
theorem ask_question_error_order (qa : PyStr → PyStr → Except Unit Candidate) (store : Store)
    (session_id : Option PyStr) (q : PyStr) (now : Nat)
    (hempty : lookupSession store [] = none) :
    ((ask_question qa store session_id q now).1 = .error .SessionNotFound ↔
      (session_id = none ∨ ∃ sid, session_id = some sid ∧ lookupSession store sid = none)) ∧
    ((ask_question qa store session_id q now).1 = .error .EmptyDocument ↔
      (∃ sid sess, session_id = some sid ∧ lookupSession store sid = some sess ∧
        sess.document_text = [])) ∧
    ((ask_question qa store session_id q now).1 = .error .EmptyQuestion ↔
      (∃ sid sess, session_id = some sid ∧ lookupSession store sid = some sess ∧
        sess.document_text ≠ [] ∧ pyStrip q = [])) ∧
    ((∃ sid sess, session_id = some sid ∧ lookupSession store sid = some sess ∧
        sess.document_text ≠ [] ∧ pyStrip q ≠ []) →
      (∃ ans hist, (ask_question qa store session_id q now).1 = .ok (ans, hist)) ∨
        (ask_question qa store session_id q now).1 = .error .ProcessingError) := by
  cases session_id with
  | none =>
    rw [ask_question_none]
    refine ⟨?_, ?_, ?_, ?_⟩ <;> simp
  | some sid =>
    by_cases hsid : sid = []
    · subst hsid
      rw [ask_question_nil_sid]
      refine ⟨?_, ?_, ?_, ?_⟩ <;> simp [hempty]
    · cases hl : lookupSession store sid with
      | none =>
        rw [ask_question_not_found hsid hl]
        refine ⟨?_, ?_, ?_, ?_⟩ <;> simp [hl]
      | some sess =>
        by_cases hdoc : sess.document_text = []
        · rw [ask_question_empty_doc hsid hl hdoc]
          refine ⟨?_, ?_, ?_, ?_⟩ <;> simp [hl, hdoc]
        · by_cases hq : pyStrip q = []
          · rw [ask_question_empty_question hsid hl hdoc hq]
            refine ⟨?_, ?_, ?_, ?_⟩ <;> simp [hl, hdoc, hq]
          · cases hscan : scanChunks (qa q) (chunk_text sess.document_text 512) initialBest with
            | error err =>
              rw [ask_question_scan_error hsid hl hdoc hq hscan]
              refine ⟨?_, ?_, ?_, ?_⟩ <;> simp [hl, hdoc, hq]
            | ok best =>
              rw [ask_question_scan_ok hsid hl hdoc hq hscan]
              refine ⟨?_, ?_, ?_, ?_⟩ <;> simp [hl, hdoc, hq]

/-- Witness for C7: asking with a missing session identifier on the
empty store fails with SessionNotFound. -/
theorem ask_question_error_order_witness :
    (ask_question (fun _ _ => Except.ok (⟨[], 0⟩ : Candidate)) [] none [] 0).1 =
      Except.error AskError.SessionNotFound :=
  (ask_question_error_order (fun _ _ => Except.ok (⟨[], 0⟩ : Candidate)) [] none [] 0
    rfl).1.mpr (Or.inl rfl)

/-- C10: on a session whose document text is non-empty but entirely
whitespace, the ask operation does not fail with EmptyDocument: the
windower produces no windows, the scan runs zero times, and the call
succeeds with the sentinel answer, appended to the history as a normal
record. -/
theorem ask_question_whitespace_doc (qa : PyStr → PyStr → Candidate) (store : Store)
    (sid : PyStr) (sess : Session) (q : PyStr) (now : Nat)
    (hsid : sid ≠ []) (hl : lookupSession store sid = some sess)
    (hdoc : sess.document_text ≠ [])
    (hws : ∀ c ∈ sess.document_text, c.isWhitespace = true)
    (hq : pyStrip q ≠ []) :
    (ask_question (fun q2 c => .ok (qa q2 c)) store (some sid) q now).1 =
      .ok (noRelevantAnswer,
        appendHistory sess.conversation_history ⟨q, noRelevantAnswer, now⟩) := by
  have hchunks : chunk_text sess.document_text 512 = [] := by
    unfold chunk_text
    rw [splitWs_all_ws sess.document_text hws]
    rfl
  have hscan : scanChunks ((fun q2 c => Except.ok (qa q2 c)) q)
      (chunk_text sess.document_text 512) initialBest = .ok initialBest := by
    rw [hchunks]
    rfl
  rw [ask_question_scan_ok hsid hl hdoc hq hscan]
  have hsel : selectAnswer initialBest = noRelevantAnswer := by
    unfold selectAnswer
    rw [if_pos (by norm_num [initialBest, relevanceThreshold])]
  rw [hsel]

/-- Witness for C10: a one-session store whose document is a single
space character answers with the sentinel and records it. -/
theorem ask_question_whitespace_doc_witness :
    (ask_question (fun q2 c => .ok ((fun _ _ => (⟨[], 0⟩ : Candidate)) q2 c))
      [(['x'], ⟨[' '], []⟩)] (some ['x']) ['q'] 0).1 =
      .ok (noRelevantAnswer,
        appendHistory (Session.mk [' '] []).conversation_history
          ⟨['q'], noRelevantAnswer, 0⟩) :=
  ask_question_whitespace_doc (fun _ _ => (⟨[], 0⟩ : Candidate)) [(['x'], ⟨[' '], []⟩)]
    ['x'] ⟨[' '], []⟩ ['q'] 0 (by decide) (by decide) (by decide) (by decide) (by decide)

end Cenizas
